import Mathlib

/-
Verification of the Byzantine-agreement core of lamport-general-systems.

Shallow embedding of src/model/old/node.py (class PartialTopologyBFT and
its Node / Commander records) and of the signed-messages node of
src/model/old/nodeplus.py (class SignedMessagesNode).

Modelling conventions:
- Python dicts are embedded as association lists in insertion order
  (CPython dicts preserve insertion order); Python sets of small ints are
  embedded as duplicate-free lists (all proved statements are insensitive
  to element order).
- The string constants ATTACK / RETREAT are embedded as the two-valued
  inductive type Value.
- print statements, and the write-only bookkeeping field sent_messages,
  are omitted: no other code reads them.
- The process-wide Network registry is embedded per system: within one
  consensus run the registry holds exactly the system's own nodes.
- The breadth-first queue loop of find_all_paths is embedded with a fuel
  parameter large enough for the loop to run to completion; the recursion
  stops as soon as the queue empties, exactly as the Python loop does.
-/

namespace BGP

inductive Value where
  | attack
  | retreat
  deriving DecidableEq, Repr

/-- DEFAULT_VALUE = RETREAT (node.py line 8). -/
def defaultValue : Value := Value.retreat

/-- Adjacency structure: `self.graph` of PartialTopologyBFT, a dict
node id -> set of neighbor ids. -/
abbrev Adjacency := List (Nat × List Nat)

def lookupList {α : Type} (l : List (Nat × α)) (k : Nat) : Option α :=
  (l.find? (fun p => p.1 == k)).map (fun p => p.2)

/-- `self.graph.get(current, [])` (node.py lines 130, 203). -/
def adjOf (g : Adjacency) (n : Nat) : List Nat :=
  (lookupList g n).getD []

/-- One expansion sweep of the BFS of is_graph_connected (node.py lines
196-206): every neighbor of an already visited node that is neither
excluded nor already visited is added to the visited list. -/
def expandStep (g : Adjacency) (excluded vis : List Nat) : List Nat :=
  vis.foldl (fun acc u =>
    (adjOf g u).foldl (fun acc2 v =>
      if v ∈ excluded ∨ v ∈ acc2 then acc2 else acc2 ++ [v]) acc) vis

def expandIter (g : Adjacency) (excluded : List Nat) : Nat → List Nat → List Nat
  | 0, vis => vis
  | n + 1, vis => expandIter g excluded n (expandStep g excluded vis)

/-- Bound on the number of expansion sweeps needed for the visited list to
reach the BFS fixpoint: no more nodes than the graph mentions. -/
def graphSize (g : Adjacency) : Nat :=
  g.length + (g.map (fun p => p.2.length)).sum

/-- The set of nodes the queue-based BFS of is_graph_connected visits,
starting from start with excluded nodes removed. -/
def reachSet (g : Adjacency) (excluded : List Nat) (start : Nat) : List Nat :=
  expandIter g excluded (graphSize g + 1) [start]

/-- PartialTopologyBFT.is_graph_connected (node.py lines 178-213):
empty graph -> False; otherwise BFS from the first non-excluded node and
check that every non-excluded node was visited (no non-excluded node at
all -> True). -/
def isGraphConnected (g : Adjacency) (excluded : List Nat) : Bool :=
  if g = [] then false
  else
    match (g.map (fun p => p.1)).find? (fun n => decide (n ∉ excluded)) with
    | none => true
    | some s =>
        g.all (fun p => decide (p.1 ∈ excluded) || decide (p.1 ∈ reachSet g excluded s))

/-- PartialTopologyBFT.calculate_node_connectivity (node.py lines 215-238):
for k = 1 .. n-1, if some k-subset of the nodes disconnects the graph,
return k - 1; if no k does, return n - 1; graphs with at most one node
give 0. -/
def calcNodeConnectivity (g : Adjacency) : Nat :=
  if g.length ≤ 1 then 0
  else
    match (List.range' 1 (g.length - 1)).find? (fun k =>
        ((g.map (fun p => p.1)).sublistsLen k).any
          (fun s => ! isGraphConnected g s)) with
    | some k => k - 1
    | none => g.length - 1

/-- Required connectivity of verify_connectivity (node.py lines 242-247):
m+1 for signed messages, 2m+1 for oral messages. -/
def requiredConnectivity (m : Nat) (useSignedMessages : Bool) : Nat :=
  if useSignedMessages then m + 1 else 2 * m + 1

/-- PartialTopologyBFT.verify_connectivity (node.py lines 240-261): pass
exactly when the computed node connectivity is at least the requirement. -/
def verifyConnectivity (g : Adjacency) (m : Nat) (useSignedMessages : Bool) : Bool :=
  decide (requiredConnectivity m useSignedMessages ≤ calcNodeConnectivity g)

/-! ## Path selection (find_all_paths / find_disjoint_paths) -/

/-- The queue loop of find_all_paths (node.py lines 117-134).  Queue
entries are (current node, path so far); a dequeued entry whose node is
the target contributes its path; otherwise, if the path is still short
enough, the unvisited neighbors are enqueued.  The fuel argument only
bounds the number of loop iterations; the loop ends by itself when the
queue empties. -/
def findAllPathsAux (g : Adjacency) (target maxLength : Nat) :
    Nat → List (Nat × List Nat) → List (List Nat)
  | 0, _ => []
  | _ + 1, [] => []
  | fuel + 1, (current, path) :: queue =>
    if current = target then
      path :: findAllPathsAux g target maxLength fuel queue
    else if maxLength ≤ path.length then
      findAllPathsAux g target maxLength fuel queue
    else
      findAllPathsAux g target maxLength fuel
        (queue ++ ((adjOf g current).filter (fun nb => decide (nb ∉ path))).map
          (fun nb => (nb, path ++ [nb])))

/-- Enough fuel for the queue of find_all_paths to empty: the number of
duplicate-free paths over the ids the graph mentions is far below this. -/
def pathFuel (g : Adjacency) (maxLength : Nat) : Nat :=
  (graphSize g + 2) ^ (maxLength + 2)

/-- PartialTopologyBFT.find_all_paths (node.py lines 112-134); the Python
default max_length=10 is passed explicitly by callers here. -/
def findAllPaths (g : Adjacency) (source target maxLength : Nat) : List (List Nat) :=
  if (lookupList g source).isSome && (lookupList g target).isSome then
    findAllPathsAux g target maxLength (pathFuel g maxLength) [(source, [source])]
  else []

/-- Undirected edge set of a path: each consecutive pair as a sorted
tuple (node.py lines 139-144 and 163-166). -/
def pathEdges (path : List Nat) : List (Nat × Nat) :=
  (path.zip path.tail).map (fun e => (min e.1 e.2, max e.1 e.2))

/-- `not path_edges.intersection(used_edges)` (node.py line 169). -/
def edgesDisjoint (es used : List (Nat × Nat)) : Bool :=
  es.all (fun e => decide (e ∉ used))

/-- The greedy selection loop of find_disjoint_paths (node.py lines
158-176): accept a candidate whose edges avoid every already used edge;
after each candidate, stop as soon as k paths are accepted. -/
def greedyDisjoint (k : Nat) :
    List (List Nat) → List (Nat × Nat) → List (List Nat) → List (List Nat)
  | [], _, acc => acc
  | p :: rest, used, acc =>
    let pe := pathEdges p
    let ok := edgesDisjoint pe used
    let used2 := if ok then used ++ pe else used
    let acc2 := if ok then acc ++ [p] else acc
    if k ≤ acc2.length then acc2 else greedyDisjoint k rest used2 acc2

/-- Stable insertion of a path into a length-sorted list of paths. -/
def orderedInsertLen (p : List Nat) : List (List Nat) → List (List Nat)
  | [] => [p]
  | q :: rest =>
    if p.length ≤ q.length then p :: q :: rest else q :: orderedInsertLen p rest

/-- `all_paths.sort(key=len)` (node.py line 156): a stable sort by length;
any stable sort by the same key produces the same list as Python's. -/
def sortByLen : List (List Nat) → List (List Nat)
  | [] => []
  | p :: rest => orderedInsertLen p (sortByLen rest)

/-- PartialTopologyBFT.find_disjoint_paths (node.py lines 148-176). -/
def findDisjointPaths (g : Adjacency) (source target k : Nat) : List (List Nat) :=
  if source = target then []
  else greedyDisjoint k (sortByLen (findAllPaths g source target 10)) [] []

/-! ## Nodes, messages, delivery -/

/-- One entry of the Node record of node.py (lines 22-29) / Commander
(lines 89-93).  initValue is `some v` exactly for the Commander, whose
constructor also presets decision to the initial value.  receivedMessages
maps round -> list of (value, path) in arrival order.  The write-only
sent_messages bookkeeping is omitted. -/
structure BFTNode where
  nodeId : Nat
  isTraitor : Bool
  initValue : Option Value
  receivedMessages : List (Nat × List (Value × List Nat))
  decision : Option Value
  deriving DecidableEq, Repr

/-- The PartialTopologyBFT instance state (node.py lines 95-110): nodes in
registration order, the commander id, and the adjacency map. -/
structure BFTSystem where
  nodes : List BFTNode
  commanderId : Nat
  graph : Adjacency
  deriving DecidableEq, Repr

/-- A message dict (node.py lines 50-55). -/
structure Message where
  value : Value
  sender : Nat
  round : Nat
  path : List Nat
  deriving DecidableEq, Repr

/-- Append an entry to a round-indexed log, creating the round key at the
end on first use (Node.receive_message, node.py lines 59-66). -/
def logAppend (log : List (Nat × List (Value × List Nat))) (round : Nat)
    (entry : Value × List Nat) : List (Nat × List (Value × List Nat)) :=
  if (log.find? (fun p => p.1 == round)).isSome then
    log.map (fun p => if p.1 == round then (p.1, p.2 ++ [entry]) else p)
  else log ++ [(round, [entry])]

def receiveMessage (nd : BFTNode) (msg : Message) : BFTNode :=
  { nd with receivedMessages := logAppend nd.receivedMessages msg.round (msg.value, msg.path) }

/-- Network.deliver_message (node.py lines 17-20): deliver only to a
registered node. -/
def deliverMessage (sys : BFTSystem) (targetId : Nat) (msg : Message) : BFTSystem :=
  if sys.nodes.any (fun nd => nd.nodeId == targetId) then
    { sys with nodes := sys.nodes.map (fun nd =>
        if nd.nodeId == targetId then receiveMessage nd msg else nd) }
  else sys

/-- The Byzantine substitution of Node.send_message (node.py lines 36-41):
a traitor in a round after round 0 replaces the value according to the
parity of the target id. -/
def liedValue (isTraitor : Bool) (value : Value) (targetNode round : Nat) : Value :=
  if isTraitor = true ∧ 0 < round then
    (if targetNode % 2 = 0 then Value.attack else Value.retreat)
  else value

/-- Node.send_message (node.py lines 31-57): apply the traitor
substitution, append the sender id to the carried path, and deliver. -/
def sendMessage (sys : BFTSystem) (sender : BFTNode) (value : Value)
    (targetNode round : Nat) (path : List Nat) : BFTSystem × Message :=
  let v := liedValue sender.isTraitor value targetNode round
  let msg : Message := ⟨v, sender.nodeId, round, path ++ [sender.nodeId]⟩
  (deliverMessage sys targetNode msg, msg)

/-- The hop loop of send_via_multipath (node.py lines 277-282): walk the
chosen route, and at each hop the current node sends to the next one,
carrying the route prefix `path[:path.index(current)+1]`. -/
def sendHops (fullPath : List Nat) (value : Value) (round : Nat) :
    BFTSystem → Nat → List Nat → BFTSystem × List Message
  | sys, _, [] => (sys, [])
  | sys, current, next :: rest =>
    let step :=
      match sys.nodes.find? (fun nd => nd.nodeId == current),
            sys.nodes.any (fun nd => nd.nodeId == next) with
      | some sender, true =>
        let pfx := fullPath.take (fullPath.indexOf current + 1)
        let sm := sendMessage sys sender value next round pfx
        (sm.1, [sm.2])
      | _, _ => (sys, [])
    let rec2 := sendHops fullPath value round step.1 next rest
    (rec2.1, step.2 ++ rec2.2)

/-- PartialTopologyBFT.send_via_multipath (node.py lines 263-282); also
returns the list of delivered messages. -/
def sendViaMultipath (sys : BFTSystem) (source target : Nat) (value : Value)
    (round k : Nat) : BFTSystem × List Message :=
  if source = target then (sys, [])
  else
    (findDisjointPaths sys.graph source target k).foldl
      (fun st path =>
        if path.length < 2 then st
        else
          let hops := sendHops path value round st.1 source path.tail
          (hops.1, st.2 ++ hops.2))
      (sys, [])

/-! ## Majority and final voting -/

/-- Node.get_majority_from_paths (node.py lines 68-87): deduplicate the
round's (value, path) entries, then strict majority with ties (and a
missing or empty round) resolving to RETREAT. -/
def getMajorityFromPaths (nd : BFTNode) (round : Nat) : Value :=
  match lookupList nd.receivedMessages round with
  | none => defaultValue
  | some entries =>
    let values := entries.eraseDups.map (fun e => e.1)
    if values = [] then defaultValue
    else if values.count Value.retreat < values.count Value.attack then Value.attack
    else Value.retreat

/-- The per-node decision of final_voting (node.py lines 392-403): every
logged value of every round, counted with multiplicity and without any
deduplication. -/
def finalDecision (nd : BFTNode) : Value :=
  let allValues := ((nd.receivedMessages.map (fun p => p.2)).flatten).map (fun e => e.1)
  if allValues = [] then defaultValue
  else if allValues.count Value.retreat < allValues.count Value.attack then Value.attack
  else Value.retreat

/-- Stable insertion of a node into an id-sorted node list. -/
def orderedInsertNode (nd : BFTNode) : List BFTNode → List BFTNode
  | [] => [nd]
  | m :: rest =>
    if nd.nodeId ≤ m.nodeId then nd :: m :: rest else m :: orderedInsertNode nd rest

/-- `sorted(self.nodes.items())` (node.py line 391). -/
def sortNodesById : List BFTNode → List BFTNode
  | [] => []
  | nd :: rest => orderedInsertNode nd (sortNodesById rest)

/-- PartialTopologyBFT.final_voting (node.py lines 387-410): walk the
nodes in ascending id order, store each node's aggregate decision on the
node, and collect the id -> decision map. -/
def finalVoting (sys : BFTSystem) : BFTSystem × List (Nat × Value) :=
  let decisions := (sortNodesById sys.nodes).map (fun nd => (nd.nodeId, finalDecision nd))
  let sys2 := { sys with nodes := sys.nodes.map (fun nd => { nd with decision := some (finalDecision nd) }) }
  (sys2, decisions)

/-! ## The two consensus drivers -/

/-- One round of run_oral_consensus (node.py lines 301-320).  Round 0: the
commander multipath-sends the initial value to every other node.  Later
rounds: every non-commander source computes its majority of the previous
round and multipath-sends it to every other node.  The fold follows the
dict iteration order of `for target in self.nodes` / `for source in
self.nodes`. -/
def oralRoundStep (ids : List Nat) (commanderId k : Nat) (initialValue : Value)
    (sys : BFTSystem) (round : Nat) : BFTSystem × List Message :=
  if round = 0 then
    ids.foldl (fun st target =>
      if target ≠ commanderId then
        let r := sendViaMultipath st.1 commanderId target initialValue round k
        (r.1, st.2 ++ r.2)
      else st) (sys, [])
  else
    ids.foldl (fun st source =>
      if source = commanderId then st
      else
        match st.1.nodes.find? (fun nd => nd.nodeId == source) with
        | none => st
        | some srcNode =>
          let sourceValue := getMajorityFromPaths srcNode (round - 1)
          ids.foldl (fun st2 target =>
            if target ≠ source then
              let r := sendViaMultipath st2.1 source target sourceValue round k
              (r.1, st2.2 ++ r.2)
            else st2) st) (sys, [])

/-- PartialTopologyBFT.run_oral_consensus (node.py lines 284-324): gate on
verify_connectivity with oral requirement; on failure return no decisions
(None) with nothing sent and no node state touched; otherwise run rounds
0..m with 2m+1 disjoint paths and finish with final_voting.  The embedding
additionally returns the final system state and the trace of delivered
messages. -/
def runOralConsensus (sys : BFTSystem) (m : Nat) (initialValue : Value) :
    Option (List (Nat × Value)) × BFTSystem × List Message :=
  if verifyConnectivity sys.graph m false then
    let k := 2 * m + 1
    let ids := sys.nodes.map (fun nd => nd.nodeId)
    let ran := (List.range (m + 1)).foldl (fun st round =>
        let r := oralRoundStep ids sys.commanderId k initialValue st.1 round
        (r.1, st.2 ++ r.2)) (sys, [])
    let fv := finalVoting ran.1
    (some fv.2, fv.1, ran.2)
  else (none, sys, [])

/-- One round of run_signed_consensus (node.py lines 343-364): as the oral
round, except that a source only relays if it has entries for the
previous round. -/
def signedRoundStep (ids : List Nat) (commanderId k : Nat) (initialValue : Value)
    (sys : BFTSystem) (round : Nat) : BFTSystem × List Message :=
  if round = 0 then
    ids.foldl (fun st target =>
      if target ≠ commanderId then
        let r := sendViaMultipath st.1 commanderId target initialValue round k
        (r.1, st.2 ++ r.2)
      else st) (sys, [])
  else
    ids.foldl (fun st source =>
      if source = commanderId then st
      else
        match st.1.nodes.find? (fun nd => nd.nodeId == source) with
        | none => st
        | some srcNode =>
          if (lookupList srcNode.receivedMessages (round - 1)).isSome then
            let sourceValue := getMajorityFromPaths srcNode (round - 1)
            ids.foldl (fun st2 target =>
              if target ≠ source then
                let r := sendViaMultipath st2.1 source target sourceValue round k
                (r.1, st2.2 ++ r.2)
              else st2) st
          else st) (sys, [])

/-- PartialTopologyBFT.run_signed_consensus (node.py lines 326-368): gate
on verify_connectivity with the signed requirement m+1, then rounds 0..m
with m+1 disjoint paths and final_voting, as for the oral run. -/
def runSignedConsensus (sys : BFTSystem) (m : Nat) (initialValue : Value) :
    Option (List (Nat × Value)) × BFTSystem × List Message :=
  if verifyConnectivity sys.graph m true then
    let k := m + 1
    let ids := sys.nodes.map (fun nd => nd.nodeId)
    let ran := (List.range (m + 1)).foldl (fun st round =>
        let r := signedRoundStep ids sys.commanderId k initialValue st.1 round
        (r.1, st.2 ++ r.2)) (sys, [])
    let fv := finalVoting ran.1
    (some fv.2, fv.1, ran.2)
  else (none, sys, [])

/-- PartialTopologyBFT.check_consensus (node.py lines 412-432).  The loyal
non-commander decisions are collected; an empty collection returns True at
once.  Otherwise IC1 (all loyal equal the first) and, for a loyal
commander, IC2 (all loyal equal the commander's initial value).  Python
raises on a decision key that is not a registered node and on a commander
without an initial value; the theorems below restrict to states where
those lookups succeed. -/
def checkConsensus (sys : BFTSystem) (decisions : List (Nat × Value)) : Bool :=
  let loyal := decisions.filter (fun p =>
    match sys.nodes.find? (fun nd => nd.nodeId == p.1) with
    | some nd => !nd.isTraitor && p.1 != sys.commanderId
    | none => false)
  if loyal = [] then true
  else
    let firstDecision := ((loyal.head?).map (fun p => p.2)).getD defaultValue
    let ic1 := loyal.all (fun p => p.2 == firstDecision)
    match sys.nodes.find? (fun nd => nd.nodeId == sys.commanderId) with
    | some cmd =>
      let ic2 :=
        if cmd.isTraitor then true
        else loyal.all (fun p => decide (some p.2 = cmd.initValue))
      ic1 && (cmd.isTraitor || ic2)
    | none => ic1

/-! ## The signed-messages node of nodeplus.py -/

/-- SignedMessagesNode state (nodeplus.py lines 191-199): id, node count,
and the stored list of (value, signature list) pairs.  The simulated
string signatures of sign_message / verify_signature encode exactly a
value and a signer-id list, and the encoding round-trips; the embedding
works at the decoded level. -/
structure SMNode where
  nodeId : Nat
  totalNodes : Nat
  signedMessages : List (Value × List Nat)
  deriving DecidableEq, Repr

/-- A relayed signed message: receiver and decoded signed content, whose
signer chain is the incoming chain with the relayer appended
(sign_message, nodeplus.py lines 201-204). -/
structure SMRelay where
  receiver : Nat
  value : Value
  chain : List Nat
  deriving DecidableEq, Repr

/-- `set(signatures) == set(stored_sigs)` (nodeplus.py line 240). -/
def sameSigSet (a b : List Nat) : Bool :=
  a.all (fun x => decide (x ∈ b)) && b.all (fun x => decide (x ∈ a))

/-- A fresh SignedMessagesNode (nodeplus.py lines 194-197). -/
def smInitNode (nodeId totalNodes : Nat) : SMNode := ⟨nodeId, totalNodes, []⟩

/-- Handling of one received signed message in
SignedMessagesNode.process_round (nodeplus.py lines 233-260): drop it if a
stored message already carries the same signer set; otherwise store it
and, if the chain is short enough, relay it (chain extended by this node)
to every node that is neither this node nor already a signer.  The middle
component records the (value, signatures) combination the node relays, if
it relays at all. -/
def smHandleMessage (st : SMNode) (v : Value) (sigs : List Nat) :
    SMNode × Option (Value × List Nat) × List SMRelay :=
  if st.signedMessages.any (fun q => sameSigSet sigs q.2) then (st, none, [])
  else
    let st2 := { st with signedMessages := st.signedMessages ++ [(v, sigs)] }
    if sigs.length ≤ st.totalNodes then
      let chain := sigs ++ [st.nodeId]
      (st2, some (v, sigs),
        (List.range st.totalNodes).filterMap (fun i =>
          if i ≠ st.nodeId ∧ i ∉ sigs then some ⟨i, v, chain⟩ else none))
    else (st2, none, [])

/-- A node processing a sequence of incoming signed messages, in arrival
order; returns the final state, the list of relayed (value, signatures)
combinations, and all relayed messages.  Any interleaving of network
deliveries across the rounds of a run presents the node with one such
sequence. -/
def smProcess (st : SMNode) :
    List (Value × List Nat) → SMNode × List (Value × List Nat) × List SMRelay
  | [] => (st, [], [])
  | (v, sigs) :: rest =>
    let h := smHandleMessage st v sigs
    let r := smProcess h.1 rest
    (r.1, h.2.1.toList ++ r.2.1, h.2.2 ++ r.2.2)

/-- Commander round-0 send of the signed variant (nodeplus.py lines
215-228): the signed initial value, chain [commander], to every other
node. -/
def smCommanderSend (st : SMNode) (v : Value) : List SMRelay :=
  (List.range st.totalNodes).filterMap (fun i =>
    if i ≠ st.nodeId then some ⟨i, v, [st.nodeId]⟩ else none)

/-! ## Spec-side decision rules (for claim C2) -/

/-- Modelled from the spec (claim C2): the majority rule of section 4.3
applied to the set of (value, path) pairs aggregated across every round,
deduplicated by path identity: Attack on a strict majority, else Retreat. -/
def specAggregateDecision (log : List (Nat × List (Value × List Nat))) : Value :=
  let values := ((log.map (fun p => p.2)).flatten).eraseDups.map (fun e => e.1)
  if values.count Value.retreat < values.count Value.attack then Value.attack
  else Value.retreat

/-- The amended aggregate rule of claim C2, which final_voting actually
implements: every logged value counted with multiplicity, no
deduplication; Attack on a strict majority, else Retreat (ties and empty
logs give Retreat). -/
def rawAggregateDecision (log : List (Nat × List (Value × List Nat))) : Value :=
  let values := ((log.map (fun p => p.2)).flatten).map (fun e => e.1)
  if values.count Value.retreat < values.count Value.attack then Value.attack
  else Value.retreat

/-! ## Path predicates (for claim C7) -/

/-- Consecutive nodes of the path are graph-adjacent. -/
def consecutiveAdjacent (g : Adjacency) : List Nat → Bool
  | [] => true
  | [_] => true
  | a :: b :: rest => decide (b ∈ adjOf g a) && consecutiveAdjacent g (b :: rest)

/-! ## Concrete systems and graphs used by the concrete theorems -/

/-- Ring on 4 nodes. -/
def ring4 : Adjacency := [(0, [1, 3]), (1, [0, 2]), (2, [1, 3]), (3, [0, 2])]

/-- Ring on 3 nodes. -/
def ring3 : Adjacency := [(0, [1, 2]), (1, [0, 2]), (2, [0, 1])]

/-- Complete graph on two nodes: loyal commander 0 with initial value
attack, loyal lieutenant 1; fresh logs, commander's decision preset by the
Commander constructor. -/
def sysK2 : BFTSystem :=
  ⟨[⟨0, false, some Value.attack, [], some Value.attack⟩,
    ⟨1, false, none, [], none⟩], 0, [(0, [1]), (1, [0])]⟩

/-- Line 0 - 1 - 2 with loyal commander 0. -/
def sysLine3 : BFTSystem :=
  ⟨[⟨0, false, some Value.attack, [], some Value.attack⟩,
    ⟨1, false, none, [], none⟩,
    ⟨2, false, none, [], none⟩], 0, [(0, [1]), (1, [0, 2]), (2, [1])]⟩

/-- A non-commander node whose log holds the same (value, path) pair
twice, as repeated deliveries along routes sharing a first hop produce. -/
def dupLogNode : BFTNode :=
  ⟨5, false, none,
   [(0, [(Value.attack, [0, 0]), (Value.attack, [0, 0]), (Value.retreat, [1, 1])])],
   none⟩

/-- A system containing dupLogNode, commander 0 loyal. -/
def sysDup : BFTSystem :=
  ⟨[⟨0, false, some Value.attack, [], some Value.attack⟩, dupLogNode],
   0, [(0, [5]), (5, [0])]⟩

/-- Loyal commander 0, traitor lieutenant 1: no loyal non-commander. -/
def sysTraitor : BFTSystem :=
  ⟨[⟨0, false, some Value.attack, [], some Value.attack⟩,
    ⟨1, true, none, [], none⟩], 0, [(0, [1]), (1, [0])]⟩

/-! ## Helper lemmas -/

/-- The explicit empty-list guard of final_voting coincides with the
count comparison on an empty list. -/
theorem countIfEmpty (l : List Value) :
    (if l = [] then defaultValue
     else if l.count Value.retreat < l.count Value.attack then Value.attack
     else Value.retreat) =
    (if l.count Value.retreat < l.count Value.attack then Value.attack
     else Value.retreat) := by
  by_cases h : l = [] <;> simp [h, defaultValue]

/-- final_voting's per-node decision equals the raw multiplicity-counting
majority. -/
theorem finalDecision_eq_raw (nd : BFTNode) :
    finalDecision nd = rawAggregateDecision nd.receivedMessages := by
  simp only [finalDecision, rawAggregateDecision]
  exact countIfEmpty _

/-! ## Claim theorems -/

/-- Claim C1 (code bug witness): the spec fixes the commander's decision
in final voting to its constructed initial value, and the Commander
constructor indeed presets decision = initial_value; but final_voting
recomputes every node's decision, the commander included, from its
received log.  On the two-node complete graph with m = 0 and initial
value Attack the oral run passes the gate, reaches final voting, and
records Retreat for the commander (its log is empty), not its initial
value Attack. -/
theorem commanderDecisionRecomputed :
    (runOralConsensus sysK2 0 Value.attack).1 =
      some [(0, Value.retreat), (1, Value.attack)] ∧
    (sysK2.nodes.head?.bind (fun nd => nd.initValue)) = some Value.attack ∧
    Value.retreat ≠ Value.attack := by
  refine ⟨by decide, by decide, by decide⟩

/-- Claim C2 counterexample: on a log holding the pair (Attack, [0,0])
twice and (Retreat, [1,1]) once, deduplication by path identity gives a
1-1 tie, hence Retreat under the rule of 4.3, but final_voting counts the
duplicate and records Attack for the non-commander node. -/
theorem finalVotingDupCount_cex :
    (finalVoting sysDup).2 = [(0, Value.retreat), (5, Value.attack)] ∧
    specAggregateDecision dupLogNode.receivedMessages = Value.retreat ∧
    finalDecision dupLogNode ≠ specAggregateDecision dupLogNode.receivedMessages := by
  refine ⟨by decide, by decide, by decide⟩

/-- Claim C2 as amended: in final voting every node's recorded decision is
the strict-majority vote over all (value, path) entries of every round of
its log counted with multiplicity and without deduplication, ties and
empty logs giving Retreat. -/
theorem finalVotingRawMajority (sys : BFTSystem) :
    (finalVoting sys).2 =
      (sortNodesById sys.nodes).map
        (fun nd => (nd.nodeId, rawAggregateDecision nd.receivedMessages)) := by
  simp only [finalVoting, finalDecision_eq_raw]

/-- Claim C3 (code bug witness): send_via_multipath hands send_message the
route prefix up to and including the current relayer, and send_message
appends the relayer again, so every delivered message's path repeats the
relayer id.  On the line 0-1-2 the two hops of route [0,1,2] deliver
paths [0,0] and [0,1,1], neither of which is duplicate-free. -/
theorem multipathPathRepeatsRelayer :
    (sendViaMultipath sysLine3 0 2 Value.attack 0 1).2 =
      [⟨Value.attack, 0, 0, [0, 0]⟩, ⟨Value.attack, 1, 0, [0, 1, 1]⟩] ∧
    ¬ ([0, 0] : List Nat).Nodup ∧ ¬ ([0, 1, 1] : List Nat).Nodup := by
  refine ⟨by decide, by decide, by decide⟩

/-- Claim C4 (code bug witness): calculate_node_connectivity returns k - 1
at the first k whose removal of some k-subset disconnects the graph, so on
the 4-ring (smallest disconnecting set: two opposite nodes) it returns 1,
not the 2 the claim (and the function's own minimum-removal description)
demands; only the 3-ring, where no proper removal disconnects, yields 2. -/
theorem ringConnectivityOffByOne :
    calcNodeConnectivity ring4 = 1 ∧ calcNodeConnectivity ring3 = 2 := by
  refine ⟨by decide, by decide⟩

/-- Claim C6: verify_connectivity passes exactly when the computed node
connectivity reaches 2m+1 for oral messages and m+1 for signed messages;
the signed requirement never exceeds the oral requirement, so an oral pass
implies a signed pass on the same graph and m. -/
theorem verifyConnectivityThresholds (g : Adjacency) (m : Nat) :
    (verifyConnectivity g m false = true ↔ 2 * m + 1 ≤ calcNodeConnectivity g) ∧
    (verifyConnectivity g m true = true ↔ m + 1 ≤ calcNodeConnectivity g) ∧
    requiredConnectivity m true ≤ requiredConnectivity m false ∧
    (verifyConnectivity g m false = true → verifyConnectivity g m true = true) := by
  refine ⟨?_, ?_, ?_, ?_⟩ <;> simp [verifyConnectivity, requiredConnectivity] <;> omega

/-- Witness for claim C6 at a concrete input: on the two-node complete
graph with m = 0 the oral gate passes, so the theorem's implication gives
the signed pass. -/
theorem verifyConnectivityThresholds_wit :
    verifyConnectivity sysK2.graph 0 true = true :=
  (verifyConnectivityThresholds sysK2.graph 0).2.2.2 (by decide)

/-- Claim C9: when the pre-flight connectivity check fails, both consensus
drivers return no decisions, leave every node's log and decision exactly
as they were, and deliver no message. -/
theorem gateFailureNoEffects (sys : BFTSystem) (m : Nat) (v : Value) :
    (verifyConnectivity sys.graph m false = false →
        runOralConsensus sys m v = (none, sys, [])) ∧
    (verifyConnectivity sys.graph m true = false →
        runSignedConsensus sys m v = (none, sys, [])) := by
  constructor <;> intro h <;> simp [runOralConsensus, runSignedConsensus, h]

/-- Witness for claim C9: the line 0-1-2 has computed connectivity 0, so
with m = 1 both gates fail and both runs return unchanged state with no
decisions and no messages. -/
theorem gateFailureNoEffects_wit :
    runOralConsensus sysLine3 1 Value.attack = (none, sysLine3, []) ∧
    runSignedConsensus sysLine3 1 Value.attack = (none, sysLine3, []) :=
  ⟨(gateFailureNoEffects sysLine3 1 Value.attack).1 (by decide),
   (gateFailureNoEffects sysLine3 1 Value.attack).2 (by decide)⟩

/-- Claim C10: check_consensus returns True whenever every registered node
other than the commander is a traitor, for every decisions map over
registered nodes, whatever its values: the loyal non-commander collection
is then empty and the function returns True before any further check. -/
theorem checkConsensusVacuous (sys : BFTSystem) (decisions : List (Nat × Value))
    (_hkeys : ∀ p ∈ decisions, ∃ nd ∈ sys.nodes, nd.nodeId = p.1)
    (htr : ∀ nd ∈ sys.nodes, nd.nodeId ≠ sys.commanderId → nd.isTraitor = true) :
    checkConsensus sys decisions = true := by
  have hfilter : decisions.filter (fun p =>
      match sys.nodes.find? (fun nd => nd.nodeId == p.1) with
      | some nd => !nd.isTraitor && p.1 != sys.commanderId
      | none => false) = [] := by
    rw [List.filter_eq_nil_iff]
    intro p hp
    cases hfind : sys.nodes.find? (fun nd => nd.nodeId == p.1) with
    | none => simp
    | some nd =>
      have hmem : nd ∈ sys.nodes := List.mem_of_find?_eq_some hfind
      have hid : nd.nodeId = p.1 := by
        have := List.find?_some hfind
        simpa using this
      by_cases hcmd : p.1 = sys.commanderId
      · simp [hcmd]
      · have : nd.isTraitor = true := htr nd hmem (by rw [hid]; exact hcmd)
        simp [this]
  simp [checkConsensus, hfilter]

/-- Witness for claim C10: commander 0 loyal, node 1 the only other node
and a traitor; decisions disagreeing with everything still check out. -/
theorem checkConsensusVacuous_wit :
    checkConsensus sysTraitor [(0, Value.attack), (1, Value.retreat)] = true :=
  checkConsensusVacuous sysTraitor [(0, Value.attack), (1, Value.retreat)]
    (by decide) (by decide)

/-! ## Claim C8: signed relay -/

theorem sameSigSet_comm (a b : List Nat) : sameSigSet a b = sameSigSet b a := by
  simp [sameSigSet, Bool.and_comm]

/-- Every message relayed while handling one signed message carries the
incoming chain extended by the relaying node. -/
theorem smHandleMessage_chain (st : SMNode) (v : Value) (sigs : List Nat) (r : SMRelay)
    (hr : r ∈ (smHandleMessage st v sigs).2.2) : r.chain = sigs ++ [st.nodeId] := by
  simp only [smHandleMessage] at hr
  split at hr
  · simp at hr
  · split at hr
    · simp only [List.mem_filterMap] at hr
      obtain ⟨i, _, hif⟩ := hr
      split at hif
      · simp only [Option.some.injEq] at hif
        subst hif
        rfl
      · cases hif
    · simp at hr

/-- The commander's round-0 signed messages carry the chain [commander]. -/
theorem smCommanderSend_chain (st : SMNode) (v : Value) (r : SMRelay)
    (hr : r ∈ smCommanderSend st v) : r.chain = [st.nodeId] := by
  simp only [smCommanderSend, List.mem_filterMap] at hr
  obtain ⟨i, _, hif⟩ := hr
  split at hif
  · simp only [Option.some.injEq] at hif
    subst hif
    rfl
  · cases hif

/-- Handling a message never removes a stored (value, signatures) pair. -/
theorem smHandleMessage_stored_mem (st : SMNode) (v : Value) (sigs : List Nat)
    (q : Value × List Nat) (hq : q ∈ st.signedMessages) :
    q ∈ (smHandleMessage st v sigs).1.signedMessages := by
  simp only [smHandleMessage]
  split
  · exact hq
  · split <;> simp [hq]

/-- When handling a message relays it, the relayed combination is the
incoming one, its signer set differed from every stored one, and it is
stored afterwards. -/
theorem smHandleMessage_key (st : SMNode) (v : Value) (sigs : List Nat)
    (k : Value × List Nat) (hk : (smHandleMessage st v sigs).2.1 = some k) :
    k = (v, sigs) ∧ (∀ q ∈ st.signedMessages, sameSigSet sigs q.2 = false) ∧
    (v, sigs) ∈ (smHandleMessage st v sigs).1.signedMessages := by
  simp only [smHandleMessage] at hk
  split at hk
  · cases hk
  case isFalse h =>
    split at hk
    case isTrue h2 =>
      simp only [Option.some.injEq] at hk
      refine ⟨hk.symm, ?_, ?_⟩
      · intro q hq
        rw [List.any_eq_true] at h
        push_neg at h
        simpa using h q hq
      · simp [smHandleMessage, h, h2]
    · cases hk

/-- Every combination a node relays differs, as a signer set, from every
combination stored before processing began. -/
theorem smProcess_keys_fresh :
    ∀ (msgs : List (Value × List Nat)) (st : SMNode) (k : Value × List Nat),
      k ∈ (smProcess st msgs).2.1 →
      ∀ q ∈ st.signedMessages, sameSigSet k.2 q.2 = false := by
  intro msgs
  induction msgs with
  | nil => intro st k hk; simp [smProcess] at hk
  | cons m rest ih =>
    intro st k hk q hq
    obtain ⟨v, sigs⟩ := m
    simp only [smProcess, List.mem_append] at hk
    cases hk with
    | inl hmem =>
      cases hcase : (smHandleMessage st v sigs).2.1 with
      | none => rw [hcase] at hmem; cases hmem
      | some k0 =>
        rw [hcase] at hmem
        simp only [Option.toList_some, List.mem_singleton] at hmem
        subst hmem
        obtain ⟨hkeq, hfresh, _⟩ := smHandleMessage_key st v sigs k hcase
        subst hkeq
        exact hfresh q hq
    | inr hmem =>
      exact ih (smHandleMessage st v sigs).1 k hmem q
        (smHandleMessage_stored_mem st v sigs q hq)

/-- The relayed combinations of one node over any processed message
sequence have pairwise different signer sets. -/
theorem smProcess_keys_pairwise :
    ∀ (msgs : List (Value × List Nat)) (st : SMNode),
      List.Pairwise (fun a b => sameSigSet a.2 b.2 = false) (smProcess st msgs).2.1 := by
  intro msgs
  induction msgs with
  | nil => intro st; simp [smProcess]
  | cons m rest ih =>
    intro st
    obtain ⟨v, sigs⟩ := m
    simp only [smProcess]
    rw [List.pairwise_append]
    refine ⟨?_, ih _, ?_⟩
    · cases (smHandleMessage st v sigs).2.1 <;> simp
    · intro a ha b hb
      cases hcase : (smHandleMessage st v sigs).2.1 with
      | none => rw [hcase] at ha; cases ha
      | some k0 =>
        rw [hcase] at ha
        simp only [Option.toList_some, List.mem_singleton] at ha
        subst ha
        obtain ⟨hkeq, _, hmem⟩ := smHandleMessage_key st v sigs a hcase
        have hforb := smProcess_keys_fresh rest _ b hb (v, sigs) hmem
        subst hkeq
        rw [sameSigSet_comm] at hforb
        exact hforb

/-- Claim C8: in the signed variant every relayed message carries a signer
chain equal to the incoming chain with the relaying node appended (the
commander's initial messages carry [commander]), and over the processing
of any sequence of incoming signed messages a node never relays the same
(value, signer-set) combination twice: the relayed combinations even have
pairwise distinct signer sets, since the code deduplicates on the signer
set alone. -/
theorem signedRelayUnique (nodeId totalNodes : Nat) (msgs : List (Value × List Nat)) :
    (∀ (st : SMNode) (v : Value) (sigs : List Nat) (r : SMRelay),
        r ∈ (smHandleMessage st v sigs).2.2 → r.chain = sigs ++ [st.nodeId]) ∧
    (∀ (st : SMNode) (v : Value) (r : SMRelay),
        r ∈ smCommanderSend st v → r.chain = [st.nodeId]) ∧
    List.Pairwise (fun a b => ¬ (a.1 = b.1 ∧ sameSigSet a.2 b.2 = true))
      (smProcess (smInitNode nodeId totalNodes) msgs).2.1 :=
  ⟨smHandleMessage_chain, smCommanderSend_chain,
    (smProcess_keys_pairwise msgs (smInitNode nodeId totalNodes)).imp
      (fun h hc => by rw [hc.2] at h; cases h)⟩

/-- Witness for claim C8 at a concrete input: node 1 of 3 handles three
incoming signed messages, among them a duplicate signer set; the relayed
combinations are pairwise distinct. -/
theorem signedRelayUnique_wit :
    List.Pairwise (fun a b => ¬ (a.1 = b.1 ∧ sameSigSet a.2 b.2 = true))
      (smProcess (smInitNode 1 3)
        [(Value.attack, [0]), (Value.attack, [0]), (Value.attack, [0, 2])]).2.1 :=
  (signedRelayUnique 1 3
    [(Value.attack, [0]), (Value.attack, [0]), (Value.attack, [0, 2])]).2.2

/-! ## Claim C7: disjoint path selection -/

theorem consecutiveAdjacent_concat (g : Adjacency) :
    ∀ (p : List Nat) (a b : Nat), p.getLast? = some a → b ∈ adjOf g a →
      consecutiveAdjacent g p = true → consecutiveAdjacent g (p ++ [b]) = true := by
  intro p
  induction p with
  | nil => intro a b h _ _; cases h
  | cons x xs ih =>
    intro a b hlast hadj hca
    cases xs with
    | nil =>
      have hxa : x = a := by simpa using hlast
      subst hxa
      simp [consecutiveAdjacent, hadj]
    | cons y ys =>
      rw [List.getLast?_cons_cons] at hlast
      simp only [consecutiveAdjacent, Bool.and_eq_true] at hca
      have htail := ih a b hlast hadj hca.2
      simp only [List.cons_append, consecutiveAdjacent, Bool.and_eq_true]
      refine ⟨hca.1, ?_⟩
      simpa [List.cons_append] using htail

/-- Every path the queue loop of find_all_paths emits is duplicate-free,
starts at the source all queue entries start at, ends at the target, and
follows graph adjacencies. -/
theorem findAllPathsAux_sound (g : Adjacency) (source target maxLength : Nat) :
    ∀ (fuel : Nat) (queue : List (Nat × List Nat)),
      (∀ e ∈ queue, e.2 ≠ [] ∧ e.2.Nodup ∧ e.2.head? = some source ∧
          e.2.getLast? = some e.1 ∧ consecutiveAdjacent g e.2 = true) →
      ∀ p ∈ findAllPathsAux g target maxLength fuel queue,
        p.Nodup ∧ p.head? = some source ∧ p.getLast? = some target ∧
        consecutiveAdjacent g p = true := by
  intro fuel
  induction fuel with
  | zero => intro queue _ p hp; simp [findAllPathsAux] at hp
  | succ fuel ih =>
    intro queue hq p hp
    cases queue with
    | nil => simp [findAllPathsAux] at hp
    | cons e rest =>
      obtain ⟨c, path⟩ := e
      obtain ⟨hne, hnd, hhd, hlast, hadj⟩ := hq (c, path) (List.mem_cons_self _ _)
      have hrest : ∀ e ∈ rest, e.2 ≠ [] ∧ e.2.Nodup ∧ e.2.head? = some source ∧
          e.2.getLast? = some e.1 ∧ consecutiveAdjacent g e.2 = true :=
        fun e he => hq e (List.mem_cons_of_mem _ he)
      simp only [findAllPathsAux] at hp
      split at hp
      case isTrue hct =>
        rw [List.mem_cons] at hp
        cases hp with
        | inl heq =>
          subst heq
          exact ⟨hnd, hhd, by rw [← hct]; exact hlast, hadj⟩
        | inr hmem => exact ih rest hrest p hmem
      case isFalse hct =>
        split at hp
        · exact ih rest hrest p hp
        case isFalse hlen =>
          refine ih _ ?_ p hp
          intro e he
          rw [List.mem_append] at he
          cases he with
          | inl h => exact hrest e h
          | inr h =>
            rw [List.mem_map] at h
            obtain ⟨nb, hnb, heq⟩ := h
            rw [List.mem_filter] at hnb
            obtain ⟨hnbadj, hnbpath⟩ := hnb
            have hnb2 : nb ∉ path := by simpa using hnbpath
            subst heq
            refine ⟨by simp, ?_, ?_, ?_, ?_⟩
            · rw [List.nodup_append]
              refine ⟨hnd, List.nodup_singleton _, ?_⟩
              intro a ha hb
              rw [List.mem_singleton] at hb
              subst hb
              exact hnb2 ha
            · rw [List.head?_append_of_ne_nil _ hne]; exact hhd
            · exact List.getLast?_concat _
            · exact consecutiveAdjacent_concat g path c nb hlast hnbadj hadj

/-- Every path find_all_paths returns is a duplicate-free source-target
path along graph edges. -/
theorem findAllPaths_sound (g : Adjacency) (source target maxLength : Nat) :
    ∀ p ∈ findAllPaths g source target maxLength,
      p.Nodup ∧ p.head? = some source ∧ p.getLast? = some target ∧
      consecutiveAdjacent g p = true := by
  intro p hp
  simp only [findAllPaths] at hp
  split at hp
  · refine findAllPathsAux_sound g source target maxLength _ _ ?_ p hp
    intro e he
    rw [List.mem_singleton] at he
    subst he
    exact ⟨by simp, List.nodup_singleton _, rfl, rfl, rfl⟩
  · cases hp

theorem mem_orderedInsertLen (p x : List Nat) :
    ∀ l, x ∈ orderedInsertLen p l ↔ x = p ∨ x ∈ l := by
  intro l
  induction l with
  | nil => simp [orderedInsertLen]
  | cons q rest ih =>
    simp only [orderedInsertLen]
    split
    · simp [List.mem_cons]
    · simp only [List.mem_cons, ih]
      tauto

theorem mem_sortByLen (x : List Nat) : ∀ l, x ∈ sortByLen l → x ∈ l := by
  intro l
  induction l with
  | nil => simp [sortByLen]
  | cons p rest ih =>
    intro hx
    simp only [sortByLen] at hx
    rw [mem_orderedInsertLen] at hx
    cases hx with
    | inl h => subst h; exact List.mem_cons_self _ _
    | inr h => exact List.mem_cons_of_mem _ (ih h)

/-- Unfolding of the greedy loop on an accepted candidate. -/
theorem greedyDisjoint_cons_pos (k : Nat) (q : List Nat) (rest : List (List Nat))
    (used : List (Nat × Nat)) (acc : List (List Nat))
    (hok : edgesDisjoint (pathEdges q) used = true) :
    greedyDisjoint k (q :: rest) used acc =
      if k ≤ (acc ++ [q]).length then acc ++ [q]
      else greedyDisjoint k rest (used ++ pathEdges q) (acc ++ [q]) := by
  simp [greedyDisjoint, hok]

/-- Unfolding of the greedy loop on a rejected candidate. -/
theorem greedyDisjoint_cons_neg (k : Nat) (q : List Nat) (rest : List (List Nat))
    (used : List (Nat × Nat)) (acc : List (List Nat))
    (hok : edgesDisjoint (pathEdges q) used = false) :
    greedyDisjoint k (q :: rest) used acc =
      if k ≤ acc.length then acc else greedyDisjoint k rest used acc := by
  simp [greedyDisjoint, hok]

/-- Everything the greedy loop returns was already accepted or was a
candidate. -/
theorem greedyDisjoint_mem (k : Nat) :
    ∀ (cands : List (List Nat)) (used : List (Nat × Nat)) (acc : List (List Nat))
      (p : List Nat), p ∈ greedyDisjoint k cands used acc → p ∈ acc ∨ p ∈ cands := by
  intro cands
  induction cands with
  | nil => intro used acc p hp; exact Or.inl (by simpa [greedyDisjoint] using hp)
  | cons q rest ih =>
    intro used acc p hp
    by_cases hok : edgesDisjoint (pathEdges q) used = true
    · rw [greedyDisjoint_cons_pos k q rest used acc hok] at hp
      split at hp
      · rw [List.mem_append] at hp
        cases hp with
        | inl h => exact Or.inl h
        | inr h =>
          rw [List.mem_singleton] at h
          exact Or.inr (h ▸ List.mem_cons_self _ _)
      · cases ih _ _ p hp with
        | inl h =>
          rw [List.mem_append] at h
          cases h with
          | inl h2 => exact Or.inl h2
          | inr h2 =>
            rw [List.mem_singleton] at h2
            exact Or.inr (h2 ▸ List.mem_cons_self _ _)
        | inr h => exact Or.inr (List.mem_cons_of_mem _ h)
    · rw [Bool.not_eq_true] at hok
      rw [greedyDisjoint_cons_neg k q rest used acc hok] at hp
      split at hp
      · exact Or.inl hp
      · cases ih _ _ p hp with
        | inl h => exact Or.inl h
        | inr h => exact Or.inr (List.mem_cons_of_mem _ h)

/-- The greedy loop preserves pairwise edge-disjointness of the accepted
paths, given that every accepted edge is recorded as used. -/
theorem greedyDisjoint_pairwise (k : Nat) :
    ∀ (cands : List (List Nat)) (used : List (Nat × Nat)) (acc : List (List Nat)),
      (∀ p ∈ acc, ∀ e ∈ pathEdges p, e ∈ used) →
      List.Pairwise (fun p q => ∀ e ∈ pathEdges p, e ∉ pathEdges q) acc →
      List.Pairwise (fun p q => ∀ e ∈ pathEdges p, e ∉ pathEdges q)
        (greedyDisjoint k cands used acc) := by
  intro cands
  induction cands with
  | nil => intro used acc _ hpw; simpa [greedyDisjoint] using hpw
  | cons q rest ih =>
    intro used acc hused hpw
    by_cases hok : edgesDisjoint (pathEdges q) used = true
    · have hpw2 : List.Pairwise (fun p q => ∀ e ∈ pathEdges p, e ∉ pathEdges q)
          (acc ++ [q]) := by
        rw [List.pairwise_append]
        refine ⟨hpw, List.pairwise_singleton _ _, ?_⟩
        intro a ha b hb
        rw [List.mem_singleton] at hb
        subst hb
        intro e hea heb
        have heu : e ∈ used := hused a ha e hea
        rw [edgesDisjoint, List.all_eq_true] at hok
        have := hok e heb
        simp only [decide_eq_true_eq] at this
        exact this heu
      have hused2 : ∀ p ∈ acc ++ [q], ∀ e ∈ pathEdges p, e ∈ used ++ pathEdges q := by
        intro p hp e he
        rw [List.mem_append] at hp ⊢
        cases hp with
        | inl h => exact Or.inl (hused p h e he)
        | inr h =>
          rw [List.mem_singleton] at h
          subst h
          exact Or.inr he
      rw [greedyDisjoint_cons_pos k q rest used acc hok]
      split
      · exact hpw2
      · exact ih _ _ hused2 hpw2
    · rw [Bool.not_eq_true] at hok
      rw [greedyDisjoint_cons_neg k q rest used acc hok]
      split
      · exact hpw
      · exact ih _ _ hused hpw

/-- For positive k the greedy loop never accepts more than k paths. -/
theorem greedyDisjoint_length (k : Nat) :
    ∀ (cands : List (List Nat)) (used : List (Nat × Nat)) (acc : List (List Nat)),
      acc.length < k → (greedyDisjoint k cands used acc).length ≤ k := by
  intro cands
  induction cands with
  | nil => intro used acc h; simp only [greedyDisjoint]; omega
  | cons q rest ih =>
    intro used acc h
    by_cases hok : edgesDisjoint (pathEdges q) used = true
    · rw [greedyDisjoint_cons_pos k q rest used acc hok]
      split
      · rename_i h2
        simpa using h
      · rename_i h2
        refine ih _ _ ?_
        simp only [List.length_append, List.length_singleton] at h2 ⊢
        omega
    · rw [Bool.not_eq_true] at hok
      rw [greedyDisjoint_cons_neg k q rest used acc hok]
      split
      · omega
      · exact ih _ _ h

/-- Claim C7 as amended: every path set find_disjoint_paths returns is
pairwise edge-disjoint and consists of duplicate-free source-to-target
paths along graph edges; the returned count is at most k whenever
k is at least 1 (with k = 0 the loop still accepts the first candidate,
see the counterexample). -/
theorem findDisjointPathsProperties (g : Adjacency) (source target k : Nat) :
    List.Pairwise (fun p q => ∀ e ∈ pathEdges p, e ∉ pathEdges q)
      (findDisjointPaths g source target k) ∧
    (∀ p ∈ findDisjointPaths g source target k,
        p.Nodup ∧ p.head? = some source ∧ p.getLast? = some target ∧
        consecutiveAdjacent g p = true) ∧
    (1 ≤ k → (findDisjointPaths g source target k).length ≤ k) := by
  by_cases hst : source = target
  · simp [findDisjointPaths, hst]
  · refine ⟨?_, ?_, ?_⟩
    · simp only [findDisjointPaths, if_neg hst]
      exact greedyDisjoint_pairwise k _ [] [] (by simp) List.Pairwise.nil
    · intro p hp
      simp only [findDisjointPaths, if_neg hst] at hp
      cases greedyDisjoint_mem k _ [] [] p hp with
      | inl h => cases h
      | inr h => exact findAllPaths_sound g source target 10 p (mem_sortByLen p _ h)
    · intro hk
      simp only [findDisjointPaths, if_neg hst]
      exact greedyDisjoint_length k _ [] [] hk

/-- Claim C7 counterexample: with k = 0 the greedy loop still accepts the
first candidate before checking the bound, so on the two-node complete
graph find_disjoint_paths returns one path although the claim allows at
most zero. -/
theorem findDisjointPathsKZero_cex :
    (findDisjointPaths sysK2.graph 0 1 0).length = 1 ∧
    ¬ ((findDisjointPaths sysK2.graph 0 1 0).length ≤ 0) := by
  refine ⟨by decide, by decide⟩

/-- Witness for claim C7 at a concrete input: the count bound of the
amended claim, discharged at k = 1 on the two-node complete graph. -/
theorem findDisjointPathsProperties_wit :
    (findDisjointPaths sysK2.graph 0 1 1).length ≤ 1 :=
  (findDisjointPathsProperties sysK2.graph 0 1 1).2.2 (by decide)

/-! ## Claim C5: the connectivity algorithm -/

/-- The BFS visited accumulator only grows within the inner neighbor
fold. -/
theorem mem_foldl_addNew (excluded : List Nat) :
    ∀ (l acc : List Nat) (x : Nat), x ∈ acc →
      x ∈ l.foldl (fun acc2 v => if v ∈ excluded ∨ v ∈ acc2 then acc2 else acc2 ++ [v]) acc := by
  intro l
  induction l with
  | nil => intro acc x hx; exact hx
  | cons v vs ih =>
    intro acc x hx
    simp only [List.foldl_cons]
    apply ih
    split
    · exact hx
    · exact List.mem_append_left _ hx

/-- The BFS visited accumulator only grows within one expansion sweep. -/
theorem mem_expandStep (g : Adjacency) (excluded : List Nat) :
    ∀ (vis : List Nat) (x : Nat), x ∈ vis → x ∈ expandStep g excluded vis := by
  have outer : ∀ (l acc : List Nat) (x : Nat), x ∈ acc →
      x ∈ l.foldl (fun acc u =>
        (adjOf g u).foldl (fun acc2 v =>
          if v ∈ excluded ∨ v ∈ acc2 then acc2 else acc2 ++ [v]) acc) acc := by
    intro l
    induction l with
    | nil => intro acc x hx; exact hx
    | cons u us ih =>
      intro acc x hx
      simp only [List.foldl_cons]
      exact ih _ x (mem_foldl_addNew excluded _ acc x hx)
  intro vis x hx
  exact outer vis vis x hx

theorem mem_expandIter (g : Adjacency) (excluded : List Nat) :
    ∀ (n : Nat) (vis : List Nat) (x : Nat), x ∈ vis → x ∈ expandIter g excluded n vis := by
  intro n
  induction n with
  | zero => intro vis x hx; exact hx
  | succ n ih =>
    intro vis x hx
    exact ih _ x (mem_expandStep g excluded vis x hx)

theorem start_mem_reachSet (g : Adjacency) (excluded : List Nat) (start : Nat) :
    start ∈ reachSet g excluded start :=
  mem_expandIter g excluded _ [start] start (by simp)

/-- When all but one node are removed, the BFS check reports the remainder
connected: it starts at the single remaining node, which it visits. -/
theorem isGraphConnected_single (g : Adjacency) (s : List Nat) (x : Nat)
    (hg : g ≠ []) (hxs : x ∉ s)
    (hall : ∀ y ∈ g.map (fun p => p.1), y ≠ x → y ∈ s) :
    isGraphConnected g s = true := by
  unfold isGraphConnected
  rw [if_neg hg]
  split
  · rfl
  · rename_i y hfind
    have hy : y ∉ s := by simpa using List.find?_some hfind
    have hymem : y ∈ g.map (fun p => p.1) := List.mem_of_find?_eq_some hfind
    have hyx : y = x := by
      by_contra hne
      exact hy (hall y hymem hne)
    subst hyx
    rw [List.all_eq_true]
    intro p hp
    by_cases hps : p.1 ∈ s
    · simp [hps]
    · have hpy : p.1 = y := by
        by_contra hne
        exact hps (hall p.1 (List.mem_map_of_mem _ hp) hne)
      rw [hpy]
      simp [start_mem_reachSet]

/-- Excluding every node makes the BFS check report connected: there is no
start node left. -/
theorem isGraphConnected_all_excluded (g : Adjacency) (hg : g ≠ []) :
    isGraphConnected g (g.map (fun p => p.1)) = true := by
  unfold isGraphConnected
  rw [if_neg hg]
  have hfind : (g.map (fun p => p.1)).find?
      (fun n => decide (n ∉ g.map (fun p => p.1))) = none := by
    rw [List.find?_eq_none]
    intro x hx
    simp [hx]
  rw [hfind]

/-- A subset holding all node ids but one never disconnects the graph, by
the BFS check. -/
theorem isGraphConnected_of_missing_one (g : Adjacency)
    (hnd : (g.map (fun p => p.1)).Nodup) (hg : g ≠ []) (s : List Nat)
    (hsub : s.Sublist (g.map (fun p => p.1)))
    (hslen : s.length = (g.map (fun p => p.1)).length - 1)
    (hpos : 1 ≤ (g.map (fun p => p.1)).length) :
    isGraphConnected g s = true := by
  obtain ⟨t, hperm⟩ := hsub.exists_perm_append
  have hlen := hperm.length_eq
  rw [List.length_append] at hlen
  have htlen : t.length = 1 := by omega
  obtain ⟨x, hx⟩ := List.length_eq_one.mp htlen
  subst hx
  have hxmem : x ∈ g.map (fun p => p.1) := hperm.mem_iff.mpr (by simp)
  have hnodup2 : (s ++ [x]).Nodup := hperm.nodup hnd
  have hxs : x ∉ s := by
    rw [List.nodup_append] at hnodup2
    intro hxin
    exact hnodup2.2.2 hxin (by simp)
  apply isGraphConnected_single g s x hg hxs
  intro y hy hyne
  have hy2 : y ∈ s ++ [x] := hperm.mem_iff.mp hy
  rw [List.mem_append] at hy2
  cases hy2 with
  | inl h => exact h
  | inr h => exact absurd (by simpa using h) hyne

theorem find?_range'_eq_none (p : Nat → Bool) :
    ∀ (n s : Nat), (∀ m, s ≤ m → m < s + n → p m = false) →
      (List.range' s n).find? p = none := by
  intro n
  induction n with
  | zero => intro s _; rfl
  | succ n ih =>
    intro s h
    rw [List.range'_succ]
    rw [List.find?_cons_of_neg]
    · exact ih (s + 1) (fun m h1 h2 => h m (by omega) (by omega))
    · simp [h s (Nat.le_refl s) (by omega)]

theorem find?_range'_eq_some (p : Nat → Bool) :
    ∀ (n s k : Nat), s ≤ k → k < s + n → p k = true →
      (∀ j, s ≤ j → j < k → p j = false) →
      (List.range' s n).find? p = some k := by
  intro n
  induction n with
  | zero => intro s k h1 h2 _ _; omega
  | succ n ih =>
    intro s k h1 h2 h3 h4
    rw [List.range'_succ]
    by_cases hsk : s = k
    · subst hsk
      exact List.find?_cons_of_pos _ h3
    · rw [List.find?_cons_of_neg]
      · exact ih (s + 1) k (by omega) (by omega) h3 (fun j hj1 hj2 => h4 j (by omega) hj2)
      · simp [h4 s (Nat.le_refl s) (by omega)]

/-- Claim C5: calculate_node_connectivity implements the stated algorithm.
For a graph with at least two (distinct) nodes: if k is the smallest size
(at least one) of a node subset whose removal the breadth-first
reachability check reports as disconnecting, the result is k - 1; if no
subset of size below n - 1 disconnects, the result is n - 1. -/
theorem nodeConnectivityAlgorithmSpec (g : Adjacency)
    (hn : 2 ≤ g.length) (hnd : (g.map (fun p => p.1)).Nodup) :
    (∀ k, 1 ≤ k →
      (∃ s ∈ (g.map (fun p => p.1)).sublistsLen k, isGraphConnected g s = false) →
      (∀ j, j < k → ∀ s ∈ (g.map (fun p => p.1)).sublistsLen j,
        isGraphConnected g s = true) →
      calcNodeConnectivity g = k - 1) ∧
    ((∀ j, j < g.length - 1 →
        ∀ s ∈ (g.map (fun p => p.1)).sublistsLen j, isGraphConnected g s = true) →
      calcNodeConnectivity g = g.length - 1) := by
  have hg : g ≠ [] := by
    intro h
    rw [h] at hn
    simp at hn
  have hidslen : (g.map (fun p => p.1)).length = g.length := List.length_map _ _
  constructor
  · rintro k hk1 ⟨s, hsmem, hsdis⟩ hmin
    rw [List.mem_sublistsLen] at hsmem
    obtain ⟨hsub, hslen⟩ := hsmem
    have hkle : k ≤ g.length := by
      have := hsub.length_le
      omega
    have hkne_n : k ≠ g.length := by
      intro h
      have hseq : s = g.map (fun p => p.1) := hsub.eq_of_length (by omega)
      rw [hseq, isGraphConnected_all_excluded g hg] at hsdis
      cases hsdis
    have hkne_n1 : k ≠ g.length - 1 := by
      intro h
      rw [isGraphConnected_of_missing_one g hnd hg s hsub (by omega) (by omega)] at hsdis
      cases hsdis
    have hfind : (List.range' 1 (g.length - 1)).find? (fun k =>
        ((g.map (fun p => p.1)).sublistsLen k).any
          (fun s => ! isGraphConnected g s)) = some k := by
      apply find?_range'_eq_some _ (g.length - 1) 1 k hk1 (by omega)
      · rw [List.any_eq_true]
        refine ⟨s, ?_, ?_⟩
        · rw [List.mem_sublistsLen]
          exact ⟨hsub, hslen⟩
        · simp [hsdis]
      · intro j hj1 hj2
        rw [List.any_eq_false]
        intro s2 hs2
        have := hmin j hj2 s2 hs2
        simp [this]
    unfold calcNodeConnectivity
    rw [if_neg (by omega), hfind]
  · intro hall
    have hfind : (List.range' 1 (g.length - 1)).find? (fun k =>
        ((g.map (fun p => p.1)).sublistsLen k).any
          (fun s => ! isGraphConnected g s)) = none := by
      apply find?_range'_eq_none
      intro m hm1 hm2
      rw [List.any_eq_false]
      intro s hsmem
      by_cases hcase : m < g.length - 1
      · have := hall m hcase s hsmem
        simp [this]
      · have hm : m = g.length - 1 := by omega
        subst hm
        rw [List.mem_sublistsLen] at hsmem
        have := isGraphConnected_of_missing_one g hnd hg s hsmem.1
          (by omega) (by omega)
        simp [this]
    unfold calcNodeConnectivity
    rw [if_neg (by omega), hfind]

/-- Witness for claim C5 at a concrete input: on the line 0-1-2 the
smallest disconnecting subset is the single middle node, so the algorithm
yields 1 - 1 = 0. -/
theorem nodeConnectivityAlgorithmSpec_wit :
    calcNodeConnectivity sysLine3.graph = 0 :=
  (nodeConnectivityAlgorithmSpec sysLine3.graph (by decide) (by decide)).1 1
    (by decide)
    ⟨[1], by decide, by decide⟩
    (by
      intro j hj
      interval_cases j
      decide)

end BGP
